import Mathlib

/-!
Verification of the SiteScanner issue-lifecycle core: a shallow embedding of
the Supabase schema (supabase/schema.sql), the worker (backend/worker.js) and
the scanner adapter (backend/scanner.js), with theorems about the claim
contract, the status state machine, the remediation pipeline and the worker
loop.

Conventions of the embedding:
- uuid values and identities are modelled as strings; timestamps as naturals.
- The issues table is a list of rows; SQL updates that match rows by id are
  list maps guarded by id equality.  Primary-key uniqueness is carried as a
  Nodup hypothesis on the list of ids where a proof needs it.
- now() is passed explicitly to every operation.
- The moddatetime trigger (updated_at := now() on every update) and the
  set_issue_creator trigger (created_by defaulted) are folded into each
  operation.
-/

namespace SiteScanner

/-- The status column.  The column is text in the schema; these seven values
are the ones the portal, the RPCs and the worker ever write (the portal lists
exactly these in its filter). -/
inductive Status where
  | reported
  | approved
  | rejected
  | in_progress
  | pr_raised
  | failed
  | done
deriving DecidableEq, Repr

/-- One row of public.issues, field for field from the create table statement
in supabase/schema.sql.  Nullable columns are options; title is text not null. -/
structure Issue where
  id : String
  created_at : Nat
  updated_at : Nat
  source_url : Option String
  title : String
  description : Option String
  manual_instructions : Option String
  status : Status
  pr_url : Option String
  error_message : Option String
  created_by : Option String
  approved_by : Option String
  approved_at : Option Nat
  claimed_by : Option String
  claimed_at : Option Nat
deriving DecidableEq, Repr

/-- The rows with status approved, in table order: the candidate set of the
claim_issue subquery (where status = approved). -/
def approvedOf (db : List Issue) : List Issue :=
  db.filter fun r => decide (r.status = Status.approved)

/-- The SQL subquery select id ... order by created_at limit 1: the first row
attaining the minimal created_at.  Ties are unspecified by the SQL; keeping
the leftmost minimal row is one consistent refinement. -/
def minByCreated : List Issue → Option Issue
  | [] => none
  | r :: rs =>
    match minByCreated rs with
    | none => some r
    | some m => if r.created_at ≤ m.created_at then some r else some m

/-- The updated row produced by claim_issue: status in_progress, claimed_by
and claimed_at stamped, updated_at bumped by the moddatetime trigger. -/
def claimedVersion (wid : String) (now : Nat) (r : Issue) : Issue :=
  { r with
    status := Status.in_progress
    claimed_by := some wid
    claimed_at := some now
    updated_at := now }

/-- public.claim_issue(worker_id): update the row selected by the subquery
(earliest created_at among status approved, for update skip locked limit 1)
to in_progress with claimed_by and claimed_at stamped, returning the updated
row; when the subquery is empty the update matches nothing and the function
returns null with the table unchanged. -/
def claim_issue (wid : String) (now : Nat) (db : List Issue) :
    Option Issue × List Issue :=
  match minByCreated (approvedOf db) with
  | none => (none, db)
  | some r =>
    (some (claimedVersion wid now r),
     db.map fun x => if x.id = r.id then claimedVersion wid now x else x)

/-- public.approve_issue(issue_id): unconditional update of the matching row
to status approved with approved_by and approved_at stamped; there is no
guard on the current status. -/
def approve_issue (issue_id : String) (uid : Option String) (now : Nat)
    (db : List Issue) : List Issue :=
  db.map fun x =>
    if x.id = issue_id then
      { x with
        status := Status.approved
        approved_by := uid
        approved_at := some now
        updated_at := now }
    else x

/-- public.reject_issue(issue_id): unconditional update of the matching row
to status rejected; no guard on the current status. -/
def reject_issue (issue_id : String) (now : Nat) (db : List Issue) :
    List Issue :=
  db.map fun x =>
    if x.id = issue_id then
      { x with status := Status.rejected, updated_at := now }
    else x

/-- The insert payload shape used by both writers (the portal form and the
scanner): title, source_url, description, manual_instructions.  Both writers
pass status reported explicitly, matching the column default; title is an
option because the not-null constraint is the only title check the schema
makes. -/
structure Draft where
  source_url : Option String
  title : Option String
  description : Option String
  manual_instructions : Option String
deriving DecidableEq, Repr

/-- Insert into public.issues: the not-null constraint on title rejects a
null title; any string title (the empty string included) is accepted.  The
new row takes the defaults of the schema (status reported, generated id,
created_at and updated_at now) and the set_issue_creator trigger fills
created_by when null. -/
def insertIssue (d : Draft) (newId : String) (uid : Option String) (now : Nat)
    (db : List Issue) : Except String (Issue × List Issue) :=
  match d.title with
  | none => Except.error "null value in column title violates not-null constraint"
  | some t =>
    let row : Issue :=
      { id := newId
        created_at := now
        updated_at := now
        source_url := d.source_url
        title := t
        description := d.description
        manual_instructions := d.manual_instructions
        status := Status.reported
        pr_url := none
        error_message := none
        created_by := uid
        approved_by := none
        approved_at := none
        claimed_by := none
        claimed_at := none }
    Except.ok (row, db ++ [row])

/-! Worker pipeline (backend/worker.js, processIssue).  Each external step is
modelled by its observable outcome: none or Except.ok means the step runs
without an exception, some e or Except.error e means it raises an exception
whose JavaScript string form is e. -/

deriving instance DecidableEq for Except

/-- Outcomes of the external steps of one pipeline run.  gitPrep covers the
four sync commands (fetch, checkout base, pull, checkout -B branch); codexRun
the remediation tool invocation; gitStatus the trimmed output of git status
porcelain, or its exception; addCommitPush the stage, commit and push
commands; prCreate the output of the PR-hosting CLI, or its exception.  The
stale-lock cleanup between codexRun and gitStatus swallows its own errors and
cannot fail, so it has no field. -/
structure PipelineEnv where
  gitPrep : Option String
  codexRun : Option String
  gitStatus : Except String String
  addCommitPush : Option String
  prCreate : Except String String
deriving DecidableEq, Repr

/-- A store write issued through updateIssue: the patch carries status always,
and pr_url or error_message exactly when the corresponding key is present in
the JavaScript patch object. -/
structure Patch where
  status : Status
  pr_url : Option String := none
  error_message : Option String := none
deriving DecidableEq, Repr

/-- JavaScript String.prototype.slice(0, n): the first n characters. -/
def jsSlice (n : Nat) (s : String) : String :=
  String.mk (s.data.take n)

/-- Split a character list at every occurrence of the separator character. -/
def splitOnChar (c : Char) : List Char → List (List Char)
  | [] => [[]]
  | x :: xs =>
    match splitOnChar c xs with
    | [] => if x = c then [[], []] else [[x]]
    | y :: ys => if x = c then [] :: y :: ys else (x :: y) :: ys

/-- JavaScript String.prototype.split with a one-character separator. -/
def jsLines (s : String) : List String :=
  (splitOnChar (Char.ofNat 10) s.data).map String.mk

/-- Substring search on character lists. -/
def isSubstring (pat : List Char) : List Char → Bool
  | [] => decide (pat = [])
  | x :: xs => pat.isPrefixOf (x :: xs) || isSubstring pat xs

/-- JavaScript String.prototype.includes: substring containment. -/
def jsIncludes (pat s : String) : Bool :=
  isSubstring pat.data s.data

/-- The catch branch of processIssue: status failed with the exception string
truncated by String(error).slice(0, 2000). -/
def failPatch (e : String) : Patch :=
  { status := Status.failed, error_message := some (jsSlice 2000 e) }

/-- The no-diff message written when git status reports no changes. -/
def noDiffMsg : String := "No changes were produced by Codex for this issue."

/-- The PR URL extraction: split the CLI output on newlines, take the first
line containing http, fall back to the raw output. -/
def extractPrUrl (out : String) : String :=
  (((jsLines out).find? fun line => jsIncludes "http" line).getD out)

/-- processIssue of backend/worker.js as the single terminal store write of
one run: the first exception among steps is caught at the boundary and
written as failed with the truncated message; an empty porcelain status is
written as failed with the no-diff message; otherwise the run ends pr_raised
with the extracted PR URL. -/
def processIssue (env : PipelineEnv) : Patch :=
  match env.gitPrep with
  | some e => failPatch e
  | none =>
    match env.codexRun with
    | some e => failPatch e
    | none =>
      match env.gitStatus with
      | Except.error e => failPatch e
      | Except.ok status =>
        if status = "" then
          { status := Status.failed, error_message := some noDiffMsg }
        else
          match env.addCommitPush with
          | some e => failPatch e
          | none =>
            match env.prCreate with
            | Except.error e => failPatch e
            | Except.ok out =>
              { status := Status.pr_raised, pr_url := some (extractPrUrl out) }

/-- The first exception raised by steps 1 to 6 of a run, none when the run
raises none (the no-diff branch raises nothing: it is a plain write). -/
def pipelineError (env : PipelineEnv) : Option String :=
  match env.gitPrep with
  | some e => some e
  | none =>
    match env.codexRun with
    | some e => some e
    | none =>
      match env.gitStatus with
      | Except.error e => some e
      | Except.ok status =>
        if status = "" then none
        else
          match env.addCommitPush with
          | some e => some e
          | none =>
            match env.prCreate with
            | Except.error e => some e
            | Except.ok _ => none

/-! Worker loop (backend/worker.js, claimIssue and main). -/

/-- The value the supabase client hands back for the claim_issue RPC: an
error, an array of rows, or a single nullable row. -/
inductive RpcResp where
  | rpcError (e : String)
  | rpcArray (xs : List Issue)
  | rpcScalar (x : Option Issue)
deriving DecidableEq, Repr

/-- claimIssue of the worker: an RPC error is logged and mapped to null; an
array answer yields its first element or null; a scalar answer yields the
row or null. -/
def claimIssueWorker : RpcResp → Option Issue
  | RpcResp.rpcError _ => none
  | RpcResp.rpcArray xs => xs.head?
  | RpcResp.rpcScalar x => x

/-- What one iteration of the worker loop does.  The loop-level catch would
sleep the error duration, but claimIssue returns null instead of throwing and
processIssue catches at its boundary, so the model needs no throw path. -/
inductive IterResult where
  | slept (ms : Nat)
  | processed (p : Patch)
deriving DecidableEq, Repr

/-- One iteration of main: claim; when the result is falsy or its id is falsy
(the empty string), sleep the idle duration and restart; otherwise run the
pipeline. -/
def loopIteration (idleMs errMs : Nat) (resp : RpcResp) (env : PipelineEnv) :
    IterResult :=
  match claimIssueWorker resp with
  | none => IterResult.slept idleMs
  | some issue =>
    if issue.id = "" then IterResult.slept idleMs
    else IterResult.processed (processIssue env)

/-! Scanner adapter (backend/scanner.js, main).  The adapter fetches the
(title, source_url, status) projection of every existing issue, hands that
list to the detector inside the scan prompt, and then inserts every finding
of the extracted answer. -/

/-- The projection of existing issues fetched before a scan. -/
structure ExistingIssue where
  title : String
  source_url : Option String
  status : Status
deriving DecidableEq, Repr

/-- One finding of the extraction schema.  The defensive alternate key
spellings of the JavaScript (Title, name, sourceUrl, url, link, and so on)
collapse to one optional field each in this typed model. -/
structure Finding where
  title : Option String
  description : Option String
  source_url : Option String
  manualInstructions : Option String
deriving DecidableEq, Repr

/-- The insert payload built for one finding: title falls back to a fixed
label, the other fields pass through, status is reported.  The
citation-marker cleanup applied to description is elided: no claim concerns
the description text. -/
def scannerPayload (f : Finding) : Draft :=
  { title := some (f.title.getD "Unlabeled issue")
    source_url := f.source_url
    description := f.description
    manual_instructions := f.manualInstructions }

/-- The insertion loop of scanner main: one insert per finding of the
extracted list.  The existingIssues list is in scope but feeds only the scan
prompt handed to the detector; the loop consults it nowhere, so every
finding is inserted. -/
def scannerInserts (existingIssues : List ExistingIssue)
    (findings : List Finding) : List Draft :=
  findings.map scannerPayload

/-! Operation traces: the exposed operations of the store, for reachability
statements about the state machine. -/

/-- The store write updateIssue(id, patch) of the worker: a partial update of
the matching row; keys absent from the patch leave their column unchanged;
the moddatetime trigger bumps updated_at. -/
def applyPatch (p : Patch) (now : Nat) (x : Issue) : Issue :=
  { x with
    status := p.status
    pr_url := p.pr_url.or x.pr_url
    error_message := p.error_message.or x.error_message
    updated_at := now }

/-- The operations exposed on the issues table: insert (portal form or
scanner), the three RPCs, and the worker terminal write for a run with the
given step outcomes. -/
inductive Op where
  | insert (d : Draft) (newId : String) (uid : Option String) (now : Nat)
  | approve (issue_id : String) (uid : Option String) (now : Nat)
  | reject (issue_id : String) (now : Nat)
  | claim (wid : String) (now : Nat)
  | workerWrite (issue_id : String) (env : PipelineEnv) (now : Nat)
deriving DecidableEq, Repr

/-- The effect of one exposed operation on the table.  A rejected insert (null
title) leaves the table unchanged. -/
def stepOp (db : List Issue) : Op → List Issue
  | Op.insert d newId uid now =>
    match insertIssue d newId uid now db with
    | Except.ok pr => pr.2
    | Except.error _ => db
  | Op.approve issue_id uid now => approve_issue issue_id uid now db
  | Op.reject issue_id now => reject_issue issue_id now db
  | Op.claim wid now => (claim_issue wid now db).2
  | Op.workerWrite issue_id env now =>
    db.map fun x =>
      if x.id = issue_id then applyPatch (processIssue env) now x else x

/-- The table reached from empty by a sequence of exposed operations. -/
def runOps (ops : List Op) : List Issue :=
  ops.foldl stepOp []

/-- The transition table of the state machine: the six defined transitions. -/
def legalTransition : Status → Status → Bool
  | Status.reported, Status.approved => true
  | Status.reported, Status.rejected => true
  | Status.approved, Status.in_progress => true
  | Status.in_progress, Status.pr_raised => true
  | Status.in_progress, Status.failed => true
  | Status.failed, Status.approved => true
  | _, _ => false

/-- The status of the row with the given id, none when no row matches. -/
def statusOf (db : List Issue) (i : String) : Option Status :=
  (db.find? fun r => decide (r.id = i)).map Issue.status

/-- Sequential claims: the results of calling claim_issue once per worker
identity in the list, each call seeing the table the previous call left.  An
interleaving of concurrent atomic claims is such a sequence in some order. -/
def claimMany (wids : List String) (now : Nat) (db : List Issue) :
    List (Option Issue) × List Issue :=
  match wids with
  | [] => ([], db)
  | w :: ws =>
    let p := claim_issue w now db
    let q := claimMany ws now p.2
    (p.1 :: q.1, q.2)

/-- The ids of the approved rows, in table order. -/
def approvedIds (db : List Issue) : List String :=
  (approvedOf db).map Issue.id

/-! Concrete fixtures for witnesses and counterexamples. -/

/-- A row with the given id, creation time and status, and every optional
column null. -/
def mkIssue (i : String) (c : Nat) (st : Status) : Issue :=
  { id := i
    created_at := c
    updated_at := c
    source_url := none
    title := "t"
    description := none
    manual_instructions := none
    status := st
    pr_url := none
    error_message := none
    created_by := none
    approved_by := none
    approved_at := none
    claimed_by := none
    claimed_at := none }

/-- A table with one approved row (created later) and one reported row. -/
def dbTwo : List Issue :=
  [mkIssue "a" 2 Status.approved, mkIssue "b" 1 Status.reported]

/-- A table with no approved row. -/
def dbIdle : List Issue :=
  [mkIssue "a" 1 Status.rejected]

/-- Two approved rows whose creation order is the reverse of their approval
order: row a was created at 2 and approved at 10, row b was created at 1 and
approved at 11. -/
def dbApprovalOrder : List Issue :=
  [{ mkIssue "a" 2 Status.approved with approved_at := some 10 },
   { mkIssue "b" 1 Status.approved with approved_at := some 11 }]

/-- A minimal valid draft. -/
def draftT : Draft :=
  { source_url := none, title := some "t", description := none,
    manual_instructions := none }

/-- A draft whose title is the empty string (present, not null). -/
def draftEmptyTitle : Draft :=
  { source_url := none, title := some "", description := none,
    manual_instructions := none }

/-- A run whose inspection step sees an empty porcelain status. -/
def envNoDiff : PipelineEnv :=
  { gitPrep := none, codexRun := none, gitStatus := Except.ok "",
    addCommitPush := none, prCreate := Except.ok "" }

/-- A run whose first sync command raises. -/
def envPrepFail : PipelineEnv :=
  { gitPrep := some "Error: fetch failed", codexRun := none,
    gitStatus := Except.ok "", addCommitPush := none,
    prCreate := Except.ok "" }

/-- A fully successful run ending in a pull request. -/
def envSuccess : PipelineEnv :=
  { gitPrep := none, codexRun := none, gitStatus := Except.ok " M rule.md",
    addCommitPush := none,
    prCreate := Except.ok "https://github.com/x/y/pull/1" }

/-- Insert then reject: the row ends rejected. -/
def opsRejected : List Op :=
  [Op.insert draftT "a" none 0, Op.reject "a" 1]

/-- Insert, reject, then approve the rejected row through the RPC. -/
def opsRejectedThenApproved : List Op :=
  opsRejected ++ [Op.approve "a" none 2]

/-- Insert, approve, claim, raise a PR, then re-approve the row through the
RPC while its pr_url is still set. -/
def opsPrThenApproved : List Op :=
  [Op.insert draftT "a" none 0, Op.approve "a" none 1, Op.claim "w" 2,
   Op.workerWrite "a" envSuccess 3, Op.approve "a" none 4]

/-- One previously fetched record. -/
def exDup : List ExistingIssue :=
  [{ title := "Dup", source_url := some "http://x", status := Status.reported }]

/-- A finding whose title and source_url equal the fetched record. -/
def findingDup : Finding :=
  { title := some "Dup", description := none, source_url := some "http://x",
    manualInstructions := none }

/-- A findings batch holding only the duplicate finding. -/
def findDup : List Finding := [findingDup]

/-- Insert, approve, claim, raise a PR: the prefix of opsPrThenApproved that
ends with the row in pr_raised. -/
def opsPr : List Op :=
  [Op.insert draftT "a" none 0, Op.approve "a" none 1, Op.claim "w" 2,
   Op.workerWrite "a" envSuccess 3]

/-- The row opsPr produces: inserted at 0, approved at 1, claimed by w at 2,
written pr_raised with the PR URL at 3. -/
def prRow : Issue :=
  { id := "a"
    created_at := 0
    updated_at := 3
    source_url := none
    title := "t"
    description := none
    manual_instructions := none
    status := Status.pr_raised
    pr_url := some "https://github.com/x/y/pull/1"
    error_message := none
    created_by := none
    approved_by := none
    approved_at := some 1
    claimed_by := some "w"
    claimed_at := some 2 }

/-! Helper lemmas. -/

theorem mem_approvedOf {db : List Issue} {x : Issue} :
    x ∈ approvedOf db ↔ x ∈ db ∧ x.status = Status.approved := by
  simp [approvedOf, List.mem_filter]

theorem minByCreated_eq_none {l : List Issue} :
    minByCreated l = none ↔ l = [] := by
  cases l with
  | nil => simp [minByCreated]
  | cons r rs =>
    simp only [minByCreated]
    cases h : minByCreated rs <;> simp
    split <;> simp

theorem minByCreated_mem {l : List Issue} {m : Issue}
    (h : minByCreated l = some m) : m ∈ l := by
  induction l generalizing m with
  | nil => simp [minByCreated] at h
  | cons r rs ih =>
    simp only [minByCreated] at h
    split at h
    · simp at h
      simp [h]
    · rename_i m0 hrs
      split at h
      · simp at h
        simp [h]
      · simp at h
        subst h
        exact List.mem_cons_of_mem r (ih hrs)

theorem minByCreated_le {l : List Issue} {m : Issue}
    (h : minByCreated l = some m) :
    ∀ x ∈ l, m.created_at ≤ x.created_at := by
  induction l generalizing m with
  | nil => simp [minByCreated] at h
  | cons r rs ih =>
    intro x hx
    simp only [minByCreated] at h
    split at h
    · rename_i hrs
      simp at h
      subst h
      rcases List.mem_cons.mp hx with hx | hx
      · simp [hx]
      · rw [minByCreated_eq_none.mp hrs] at hx
        cases hx
    · rename_i m0 hrs
      split at h
      · rename_i hle
        simp at h
        subst h
        rcases List.mem_cons.mp hx with hx | hx
        · simp [hx]
        · exact le_trans hle (ih hrs x hx)
      · rename_i hle
        simp at h
        subst h
        rcases List.mem_cons.mp hx with hx | hx
        · subst hx
          exact le_of_not_le hle
        · exact ih hrs x hx

theorem claim_issue_of_no_approved (wid : String) (now : Nat)
    {db : List Issue} (h : approvedOf db = []) :
    claim_issue wid now db = (none, db) := by
  simp [claim_issue, h, minByCreated]

/-- Rows of a table with pairwise distinct ids are equal when their ids are. -/
theorem eq_of_mem_of_id_eq {db : List Issue}
    (hnd : (db.map Issue.id).Nodup) {x y : Issue}
    (hx : x ∈ db) (hy : y ∈ db) (hid : x.id = y.id) : x = y := by
  induction db with
  | nil => cases hx
  | cons a t ih =>
    simp only [List.map_cons, List.nodup_cons] at hnd
    rcases List.mem_cons.mp hx with hx1 | hx1 <;>
      rcases List.mem_cons.mp hy with hy1 | hy1
    · rw [hx1, hy1]
    · exfalso
      apply hnd.1
      have ha : a.id = y.id := by rw [← hx1, hid]
      rw [ha]
      exact List.mem_map_of_mem Issue.id hy1
    · exfalso
      apply hnd.1
      have ha : a.id = x.id := by rw [← hy1, ← hid]
      rw [ha]
      exact List.mem_map_of_mem Issue.id hx1
    · exact ih hnd.2 hx1 hy1

/-- When the subquery selects s, the claim decomposes the table around the
single row with the id of s and replaces exactly that row. -/
theorem claim_issue_split (wid : String) (now : Nat) {db : List Issue}
    (hnd : (db.map Issue.id).Nodup) {s : Issue}
    (hsel : minByCreated (approvedOf db) = some s) :
    ∃ l1 l2, db = l1 ++ s :: l2 ∧
      (∀ x ∈ l1, x.id ≠ s.id) ∧ (∀ x ∈ l2, x.id ≠ s.id) ∧
      claim_issue wid now db =
        (some (claimedVersion wid now s),
         l1 ++ claimedVersion wid now s :: l2) := by
  have hs : s ∈ db := (mem_approvedOf.mp (minByCreated_mem hsel)).1
  obtain ⟨l1, l2, rfl⟩ := List.append_of_mem hs
  have hmap : ((l1 ++ s :: l2).map Issue.id)
      = l1.map Issue.id ++ s.id :: l2.map Issue.id := by simp
  rw [hmap] at hnd
  have h1 : ∀ x ∈ l1, x.id ≠ s.id := by
    intro x hx he
    have : s.id ∈ l1.map Issue.id := he ▸ List.mem_map_of_mem Issue.id hx
    exact (List.disjoint_of_nodup_append hnd) this (List.mem_cons_self _ _)
  have h2 : ∀ x ∈ l2, x.id ≠ s.id := by
    intro x hx he
    have hn2 := (List.nodup_append.mp hnd).2.1
    rw [List.nodup_cons] at hn2
    exact hn2.1 (he ▸ List.mem_map_of_mem Issue.id hx)
  refine ⟨l1, l2, rfl, h1, h2, ?_⟩
  simp only [claim_issue, hsel]
  have e1 : List.map
      (fun x => if x.id = s.id then claimedVersion wid now x else x) l1
      = List.map (fun x => x) l1 :=
    List.map_congr_left fun x hx => if_neg (h1 x hx)
  have e2 : List.map
      (fun x => if x.id = s.id then claimedVersion wid now x else x) l2
      = List.map (fun x => x) l2 :=
    List.map_congr_left fun x hx => if_neg (h2 x hx)
  rw [List.map_append, List.map_cons, if_pos rfl, e1, e2]
  simp

theorem approvedIds_nodup {db : List Issue}
    (hnd : (db.map Issue.id).Nodup) : (approvedIds db).Nodup :=
  ((List.filter_sublist db).map Issue.id).nodup hnd

/-- A successful claim consumes exactly the selected id from the approved
backlog and preserves the ids of the table. -/
theorem claim_issue_success (wid : String) (now : Nat) {db : List Issue}
    (hnd : (db.map Issue.id).Nodup) {s : Issue}
    (hsel : minByCreated (approvedOf db) = some s) :
    ∃ A1 A2,
      approvedIds db = A1 ++ s.id :: A2 ∧
      approvedIds (claim_issue wid now db).2 = A1 ++ A2 ∧
      ((claim_issue wid now db).2.map Issue.id) = db.map Issue.id ∧
      (claim_issue wid now db).1 = some (claimedVersion wid now s) := by
  obtain ⟨l1, l2, hdb, h1, h2, heq⟩ := claim_issue_split wid now hnd hsel
  have hs : s.status = Status.approved :=
    (mem_approvedOf.mp (minByCreated_mem hsel)).2
  refine ⟨approvedIds l1, approvedIds l2, ?_, ?_, ?_, ?_⟩
  · rw [hdb]
    simp [approvedIds, approvedOf, List.filter_append, List.filter_cons, hs]
  · rw [heq]
    simp [approvedIds, approvedOf, List.filter_append, List.filter_cons,
      claimedVersion]
  · rw [heq, hdb]
    simp [claimedVersion]
  · rw [heq]

theorem claimMany_cons (w : String) (ws : List String) (now : Nat)
    (db : List Issue) :
    claimMany (w :: ws) now db =
      ((claim_issue w now db).1 ::
        (claimMany ws now (claim_issue w now db).2).1,
       (claimMany ws now (claim_issue w now db).2).2) := by
  simp [claimMany]

/-- A row of the table left by a claim that is still approved was a row of
the table before the claim. -/
theorem approved_mem_claim {wid : String} {now : Nat} {db : List Issue}
    {x : Issue} (hx : x ∈ (claim_issue wid now db).2)
    (hst : x.status = Status.approved) : x ∈ db := by
  unfold claim_issue at hx
  cases hsel : minByCreated (approvedOf db) with
  | none =>
    rw [hsel] at hx
    exact hx
  | some r =>
    rw [hsel] at hx
    simp only [List.mem_map] at hx
    obtain ⟨y, hy, hxy⟩ := hx
    by_cases hc : y.id = r.id
    · rw [if_pos hc] at hxy
      rw [← hxy] at hst
      simp [claimedVersion] at hst
    · rw [if_neg hc] at hxy
      rw [← hxy]
      exact hy

/-- Every row returned by a sequence of claims is the claimed version of an
approved row of the initial table; in particular its creation time is the
creation time of such a row. -/
theorem claimMany_created_of_mem (wids : List String) (now : Nat) :
    ∀ (db : List Issue) (b : Issue),
      b ∈ (claimMany wids now db).1.reduceOption →
      ∃ x ∈ db, x.status = Status.approved ∧ b.created_at = x.created_at := by
  induction wids with
  | nil =>
    intro db b hb
    simp [claimMany, List.reduceOption] at hb
  | cons w ws ih =>
    intro db b hb
    rw [claimMany_cons] at hb
    cases hsel : minByCreated (approvedOf db) with
    | none =>
      have hcl := claim_issue_of_no_approved w now
        (minByCreated_eq_none.mp hsel)
      rw [hcl] at hb
      simp only [List.reduceOption_cons_of_none] at hb
      exact ih db b hb
    | some s =>
      have hcl : (claim_issue w now db).1 = some (claimedVersion w now s) := by
        simp [claim_issue, hsel]
      rw [hcl] at hb
      rw [List.reduceOption_cons_of_some] at hb
      rcases List.mem_cons.mp hb with hb | hb
      · refine ⟨s, (mem_approvedOf.mp (minByCreated_mem hsel)).1,
          (mem_approvedOf.mp (minByCreated_mem hsel)).2, ?_⟩
        rw [hb]
        rfl
      · obtain ⟨x, hx, hxs, hxc⟩ := ih _ b hb
        exact ⟨x, approved_mem_claim hx hxs, hxs, hxc⟩

/-- Sequential claims return rows in nondecreasing creation-time order. -/
theorem claimMany_pairwise_created (wids : List String) (now : Nat) :
    ∀ db : List Issue,
      ((claimMany wids now db).1.reduceOption).Pairwise
        (fun a b => a.created_at ≤ b.created_at) := by
  induction wids with
  | nil =>
    intro db
    simp [claimMany, List.reduceOption]
  | cons w ws ih =>
    intro db
    rw [claimMany_cons]
    cases hsel : minByCreated (approvedOf db) with
    | none =>
      have hcl := claim_issue_of_no_approved w now
        (minByCreated_eq_none.mp hsel)
      rw [hcl]
      simp only [List.reduceOption_cons_of_none]
      exact ih db
    | some s =>
      have hcl : (claim_issue w now db).1 = some (claimedVersion w now s) := by
        simp [claim_issue, hsel]
      rw [hcl, List.reduceOption_cons_of_some]
      refine List.Pairwise.cons ?_ (ih _)
      intro b hb
      obtain ⟨x, hx, hxs, hxc⟩ :=
        claimMany_created_of_mem ws now _ b hb
      have hx0 : x ∈ db := approved_mem_claim hx hxs
      have : s.created_at ≤ x.created_at :=
        minByCreated_le hsel x (mem_approvedOf.mpr ⟨hx0, hxs⟩)
      rw [hxc]
      exact this

/-- The combined bookkeeping of a sequence of claims: one answer per call,
min(N, M) successes, every returned id drawn from the initial approved
backlog, and the returned ids pairwise distinct. -/
theorem claimMany_main (wids : List String) (now : Nat) :
    ∀ db : List Issue, (db.map Issue.id).Nodup →
      (claimMany wids now db).1.length = wids.length ∧
      (claimMany wids now db).1.reduceOption.length
        = min wids.length (approvedIds db).length ∧
      (∀ r ∈ (claimMany wids now db).1.reduceOption,
        r.id ∈ approvedIds db) ∧
      ((claimMany wids now db).1.reduceOption.map Issue.id).Nodup := by
  induction wids with
  | nil =>
    intro db hnd
    simp [claimMany, List.reduceOption]
  | cons w ws ih =>
    intro db hnd
    rw [claimMany_cons]
    cases hsel : minByCreated (approvedOf db) with
    | none =>
      have hcl := claim_issue_of_no_approved w now
        (minByCreated_eq_none.mp hsel)
      have hemp : approvedIds db = [] := by
        simp [approvedIds, minByCreated_eq_none.mp hsel]
      rw [hcl]
      obtain ⟨ihl, ihc, ihsub, ihnd⟩ := ih db hnd
      simp only [List.reduceOption_cons_of_none]
      refine ⟨by simp [ihl], ?_, ihsub, ihnd⟩
      rw [ihc, hemp]
      simp
    | some s =>
      obtain ⟨A1, A2, hA, hA2, hids, hres⟩ :=
        claim_issue_success w now hnd hsel
      have hnd2 : ((claim_issue w now db).2.map Issue.id).Nodup := by
        rw [hids]
        exact hnd
      obtain ⟨ihl, ihc, ihsub, ihnd⟩ := ih _ hnd2
      have hsid : s.id ∉ A1 ++ A2 := by
        have := approvedIds_nodup hnd
        rw [hA] at this
        intro hmem
        rcases List.mem_append.mp hmem with hm | hm
        · exact (List.disjoint_of_nodup_append this) hm
            (List.mem_cons_self _ _)
        · have hn2 := (List.nodup_append.mp this).2.1
          rw [List.nodup_cons] at hn2
          exact hn2.1 hm
      rw [hres]
      simp only [List.reduceOption_cons_of_some]
      refine ⟨by simp [ihl], ?_, ?_, ?_⟩
      · have hlen : (approvedIds db).length = (A1 ++ A2).length + 1 := by
          rw [hA]
          simp [List.length_append]
          omega
        rw [List.length_cons, ihc, hA2, hlen]
        simp only [List.length_cons]
        omega
      · intro r hr
        rcases List.mem_cons.mp hr with hr | hr
        · rw [hr]
          show s.id ∈ approvedIds db
          rw [hA]
          exact List.mem_append_right _ (List.mem_cons_self _ _)
        · have := ihsub r hr
          rw [hA2] at this
          rw [hA]
          rcases List.mem_append.mp this with hm | hm
          · exact List.mem_append_left _ hm
          · exact List.mem_append_right _ (List.mem_cons_of_mem _ hm)
      · rw [List.map_cons, List.nodup_cons]
        refine ⟨?_, ihnd⟩
        intro hmem
        obtain ⟨r, hr, hrid⟩ := List.mem_map.mp hmem
        have := ihsub r hr
        rw [hA2] at this
        show False
        apply hsid
        rw [show (claimedVersion w now s).id = s.id from rfl] at hrid
        rw [← hrid]
        exact this

/-- The three shapes a pipeline run's terminal write can take: a caught
exception, the no-diff failure, or a raised PR. -/
theorem processIssue_cases (env : PipelineEnv) :
    (∃ e, processIssue env = failPatch e) ∨
    processIssue env =
      { status := Status.failed, error_message := some noDiffMsg } ∨
    (∃ out, processIssue env =
      { status := Status.pr_raised, pr_url := some (extractPrUrl out) }) := by
  obtain ⟨gp, cr, gs, acp, pc⟩ := env
  cases gp with
  | some e => exact Or.inl ⟨e, rfl⟩
  | none =>
    cases cr with
    | some e => exact Or.inl ⟨e, rfl⟩
    | none =>
      cases gs with
      | error e => exact Or.inl ⟨e, rfl⟩
      | ok st =>
        by_cases hst : st = ""
        · subst hst
          exact Or.inr (Or.inl rfl)
        · cases acp with
          | some e =>
            refine Or.inl ⟨e, ?_⟩
            simp [processIssue, hst]
          | none =>
            cases pc with
            | error e =>
              refine Or.inl ⟨e, ?_⟩
              simp [processIssue, hst]
            | ok out =>
              refine Or.inr (Or.inr ⟨out, ?_⟩)
              simp [processIssue, hst]

/-- A run whose steps raise writes the caught exception, truncated. -/
theorem processIssue_of_error {env : PipelineEnv} {e : String}
    (h : pipelineError env = some e) : processIssue env = failPatch e := by
  obtain ⟨gp, cr, gs, acp, pc⟩ := env
  cases gp with
  | some e0 =>
    simp [pipelineError] at h
    simp [processIssue, h]
  | none =>
    cases cr with
    | some e0 =>
      simp [pipelineError] at h
      simp [processIssue, h]
    | none =>
      cases gs with
      | error e0 =>
        simp [pipelineError] at h
        simp [processIssue, h]
      | ok st =>
        by_cases hst : st = ""
        · subst hst
          simp [pipelineError] at h
        · cases acp with
          | some e0 =>
            simp [pipelineError, hst] at h
            simp [processIssue, hst, h]
          | none =>
            cases pc with
            | error e0 =>
              simp [pipelineError, hst] at h
              simp [processIssue, hst, h]
            | ok out =>
              simp [pipelineError, hst] at h

/-- A run that reaches the pull-request write has a URL in the write. -/
theorem processIssue_pr_url {env : PipelineEnv}
    (h : (processIssue env).status = Status.pr_raised) :
    ∃ u, (processIssue env).pr_url = some u := by
  rcases processIssue_cases env with ⟨e, he⟩ | he | ⟨out, he⟩
  · rw [he] at h
    simp [failPatch] at h
  · rw [he] at h
    simp at h
  · rw [he]
    exact ⟨extractPrUrl out, rfl⟩

theorem jsSlice_length_le (n : Nat) (s : String) : (jsSlice n s).length ≤ n := by
  have h : (jsSlice n s).length = (s.data.take n).length := rfl
  rw [h, List.length_take]
  omega

/-- Every exposed operation preserves the invariant that a row in status
pr_raised carries a URL. -/
theorem stepOp_pr_inv {db : List Issue}
    (h : ∀ r ∈ db, r.status = Status.pr_raised → r.pr_url ≠ none) (op : Op) :
    ∀ r ∈ stepOp db op, r.status = Status.pr_raised → r.pr_url ≠ none := by
  intro r hr hst
  cases op with
  | insert d newId uid now =>
    simp only [stepOp] at hr
    cases hdt : d.title with
    | none =>
      rw [insertIssue, hdt] at hr
      exact h r hr hst
    | some t =>
      rw [insertIssue, hdt] at hr
      simp only at hr
      rcases List.mem_append.mp hr with hm | hm
      · exact h r hm hst
      · simp at hm
        rw [hm] at hst
        simp at hst
  | approve issue_id uid now =>
    simp only [stepOp, approve_issue, List.mem_map] at hr
    obtain ⟨y, hy, hxy⟩ := hr
    by_cases hc : y.id = issue_id
    · rw [if_pos hc] at hxy
      rw [← hxy] at hst
      simp at hst
    · rw [if_neg hc] at hxy
      rw [← hxy] at hst ⊢
      exact h y hy hst
  | reject issue_id now =>
    simp only [stepOp, reject_issue, List.mem_map] at hr
    obtain ⟨y, hy, hxy⟩ := hr
    by_cases hc : y.id = issue_id
    · rw [if_pos hc] at hxy
      rw [← hxy] at hst
      simp at hst
    · rw [if_neg hc] at hxy
      rw [← hxy] at hst ⊢
      exact h y hy hst
  | claim wid now =>
    simp only [stepOp] at hr
    unfold claim_issue at hr
    cases hsel : minByCreated (approvedOf db) with
    | none =>
      rw [hsel] at hr
      exact h r hr hst
    | some sel =>
      rw [hsel] at hr
      simp only [List.mem_map] at hr
      obtain ⟨y, hy, hxy⟩ := hr
      by_cases hc : y.id = sel.id
      · rw [if_pos hc] at hxy
        rw [← hxy] at hst
        simp [claimedVersion] at hst
      · rw [if_neg hc] at hxy
        rw [← hxy] at hst ⊢
        exact h y hy hst
  | workerWrite issue_id env now =>
    simp only [stepOp, List.mem_map] at hr
    obtain ⟨y, hy, hxy⟩ := hr
    by_cases hc : y.id = issue_id
    · rw [if_pos hc] at hxy
      rw [← hxy] at hst ⊢
      have hps : (processIssue env).status = Status.pr_raised := hst
      obtain ⟨u, hu⟩ := processIssue_pr_url hps
      simp [applyPatch, hu, Option.or]
    · rw [if_neg hc] at hxy
      rw [← hxy] at hst ⊢
      exact h y hy hst

/-! Claim theorems. -/

/-- C1: claim_issue with at least one approved row selects exactly one such
row — one with the earliest creation time — transitions it to in_progress,
stamps claimed_by with the worker identity and claimed_at with the current
time, and returns that row; with no approved row it returns none rather than
an error and modifies no row. -/
theorem claim_issue_spec (wid : String) (now : Nat) (db : List Issue)
    (hnd : (db.map Issue.id).Nodup) :
    ((∀ r ∈ db, r.status ≠ Status.approved) →
      claim_issue wid now db = (none, db)) ∧
    ((∃ r ∈ db, r.status = Status.approved) →
      ∃ s l1 l2,
        db = l1 ++ s :: l2 ∧ s.status = Status.approved ∧
        (∀ x ∈ db, x.status = Status.approved →
          s.created_at ≤ x.created_at) ∧
        (claimedVersion wid now s).status = Status.in_progress ∧
        (claimedVersion wid now s).claimed_by = some wid ∧
        (claimedVersion wid now s).claimed_at = some now ∧
        claim_issue wid now db =
          (some (claimedVersion wid now s),
           l1 ++ claimedVersion wid now s :: l2)) := by
  constructor
  · intro hno
    apply claim_issue_of_no_approved
    unfold approvedOf
    rw [List.filter_eq_nil]
    intro a ha
    simpa using hno a ha
  · rintro ⟨r, hr, hst⟩
    have hne : approvedOf db ≠ [] := by
      intro hemp
      have hmem : r ∈ approvedOf db := mem_approvedOf.mpr ⟨hr, hst⟩
      rw [hemp] at hmem
      cases hmem
    cases hsel : minByCreated (approvedOf db) with
    | none => exact absurd (minByCreated_eq_none.mp hsel) hne
    | some s =>
      obtain ⟨l1, l2, hdb, h1, h2, heq⟩ := claim_issue_split wid now hnd hsel
      refine ⟨s, l1, l2, hdb,
        (mem_approvedOf.mp (minByCreated_mem hsel)).2, ?_, rfl, rfl, rfl, heq⟩
      intro x hx hxst
      exact minByCreated_le hsel x (mem_approvedOf.mpr ⟨hx, hxst⟩)

/-- Witness for claim_issue_spec: a concrete table with one approved row. -/
theorem claim_issue_spec_witness :
    ∃ s l1 l2,
      dbTwo = l1 ++ s :: l2 ∧ s.status = Status.approved ∧
      (∀ x ∈ dbTwo, x.status = Status.approved →
        s.created_at ≤ x.created_at) ∧
      (claimedVersion "w" 5 s).status = Status.in_progress ∧
      (claimedVersion "w" 5 s).claimed_by = some "w" ∧
      (claimedVersion "w" 5 s).claimed_at = some 5 ∧
      claim_issue "w" 5 dbTwo =
        (some (claimedVersion "w" 5 s),
         l1 ++ claimedVersion "w" 5 s :: l2) :=
  (claim_issue_spec "w" 5 dbTwo (by decide)).2 (by decide)

/-- C2: for a sequence of atomic claim calls — the serialization the
skip-locked selection gives any set of concurrent callers — against a table
whose approved backlog has M rows, exactly min(N, M) of the N calls return a
row, every returned id comes from the approved backlog, the returned ids are
pairwise distinct (no row goes to two callers), and the remaining calls
return none. -/
theorem claim_exclusivity (wids : List String) (now : Nat) (db : List Issue)
    (hnd : (db.map Issue.id).Nodup) :
    (claimMany wids now db).1.length = wids.length ∧
    (claimMany wids now db).1.reduceOption.length
      = min wids.length (approvedIds db).length ∧
    (∀ r ∈ (claimMany wids now db).1.reduceOption,
      r.id ∈ approvedIds db) ∧
    ((claimMany wids now db).1.reduceOption.map Issue.id).Nodup :=
  claimMany_main wids now db hnd

/-- Witness for claim_exclusivity: two callers, one approved row — one call
succeeds, one returns none, no id is returned twice. -/
theorem claim_exclusivity_witness :
    (claimMany ["w1", "w2"] 5 dbTwo).1.length = (["w1", "w2"] : List String).length ∧
    (claimMany ["w1", "w2"] 5 dbTwo).1.reduceOption.length
      = min (["w1", "w2"] : List String).length (approvedIds dbTwo).length ∧
    (∀ r ∈ (claimMany ["w1", "w2"] 5 dbTwo).1.reduceOption,
      r.id ∈ approvedIds dbTwo) ∧
    ((claimMany ["w1", "w2"] 5 dbTwo).1.reduceOption.map Issue.id).Nodup :=
  claim_exclusivity ["w1", "w2"] 5 dbTwo (by decide)

/-- C4 counterexample: two rows approved in the order a (approved at 10)
then b (approved at 11), but created in the reverse order; the claim as
stated predicts the first claim returns row a, yet the first claim returns
row b, because the selection orders by creation time, not approval time. -/
theorem claim_ordering_cex :
    (∃ ra ∈ dbApprovalOrder, ra.id = "a" ∧ ra.approved_at = some 10) ∧
    (∃ rb ∈ dbApprovalOrder, rb.id = "b" ∧ rb.approved_at = some 11) ∧
    ((claimMany ["w1", "w2"] 20 dbApprovalOrder).1.map
      (fun o => Option.map Issue.id o)) = [some "b", some "a"] := by
  decide

/-- C4 amended: sequential claims return records in creation-time order
(oldest created first); when records are approved in their creation order
this coincides with approval order, but in general the order is by
created_at. -/
theorem claim_ordering_amended (wids : List String) (now : Nat)
    (db : List Issue) :
    ((claimMany wids now db).1.reduceOption).Pairwise
      (fun a b => a.created_at ≤ b.created_at) :=
  claimMany_pairwise_created wids now db

/-- C3 counterexample: the exposed RPC approve_issue has no status guard, so
the undefined transition rejected to approved is reachable: after insert and
reject the row is rejected, one approve_issue call makes it approved, and
that step is not in the transition table. -/
theorem transition_legality_cex :
    statusOf (runOps opsRejected) "a" = some Status.rejected ∧
    statusOf (runOps opsRejectedThenApproved) "a" = some Status.approved ∧
    legalTransition Status.rejected Status.approved = false := by
  decide

/-- C3 amended: claim_issue performs only the approved to in_progress
transition of the table; approve_issue and reject_issue, however, update the
addressed row unconditionally, so status sequences outside the table (such
as rejected to approved) are reachable through them. -/
theorem transition_legality_amended (db : List Issue)
    (hnd : (db.map Issue.id).Nodup) (wid : String) (now : Nat) :
    (∀ x ∈ db, ∀ y ∈ (claim_issue wid now db).2,
      y.id = x.id → y.status ≠ x.status →
      x.status = Status.approved ∧ y.status = Status.in_progress) ∧
    (∀ i uid x, x ∈ db → x.id = i →
      { x with
          status := Status.approved
          approved_by := uid
          approved_at := some now
          updated_at := now }
        ∈ approve_issue i uid now db) ∧
    (∀ i x, x ∈ db → x.id = i →
      { x with status := Status.rejected, updated_at := now }
        ∈ reject_issue i now db) := by
  refine ⟨?_, ?_, ?_⟩
  · intro x hx y hy hid hne
    cases hsel : minByCreated (approvedOf db) with
    | none =>
      have hcl := claim_issue_of_no_approved wid now
        (minByCreated_eq_none.mp hsel)
      rw [hcl] at hy
      exact absurd (congrArg Issue.status (eq_of_mem_of_id_eq hnd hy hx hid))
        hne
    | some s =>
      obtain ⟨l1, l2, hdb, h1, h2, heq⟩ := claim_issue_split wid now hnd hsel
      have hs : s.status = Status.approved :=
        (mem_approvedOf.mp (minByCreated_mem hsel)).2
      rw [heq] at hy
      simp only at hy
      rcases List.mem_append.mp hy with hm | hm
      · have hyx : y = x :=
          eq_of_mem_of_id_eq hnd (hdb ▸ List.mem_append_left _ hm) hx hid
        exact absurd (congrArg Issue.status hyx) hne
      · rcases List.mem_cons.mp hm with hm | hm
        · have hxs : x = s := by
            apply eq_of_mem_of_id_eq hnd hx
              (hdb ▸ List.mem_append_right _ (List.mem_cons_self _ _))
            rw [← hid, hm]
            rfl
          subst hxs
          rw [hm]
          exact ⟨hs, rfl⟩
        · have hyx : y = x := by
            apply eq_of_mem_of_id_eq hnd ?_ hx hid
            rw [hdb]
            exact List.mem_append_right _ (List.mem_cons_of_mem _ hm)
          exact absurd (congrArg Issue.status hyx) hne
  · intro i uid x hx hxi
    have hm := List.mem_map_of_mem
      (fun x : Issue =>
        if x.id = i then
          { x with
              status := Status.approved
              approved_by := uid
              approved_at := some now
              updated_at := now }
        else x) hx
    simp only at hm
    rw [if_pos hxi] at hm
    exact hm
  · intro i x hx hxi
    have hm := List.mem_map_of_mem
      (fun x : Issue =>
        if x.id = i then
          { x with status := Status.rejected, updated_at := now }
        else x) hx
    simp only at hm
    rw [if_pos hxi] at hm
    exact hm

/-- Witness for transition_legality_amended: the unguarded approve on a
concrete table. -/
theorem transition_legality_amended_witness :
    { mkIssue "a" 2 Status.approved with
        status := Status.approved
        approved_by := (none : Option String)
        approved_at := some 5
        updated_at := 5 } ∈ approve_issue "a" none 5 dbTwo :=
  (transition_legality_amended dbTwo (by decide) "w" 5).2.1 "a" none
    (mkIssue "a" 2 Status.approved) (by decide) (by decide)

/-- C5: a run that reaches the working-copy inspection and sees an empty
porcelain status writes failed with the no-changes message and never reaches
pr_raised in that run. -/
theorem no_diff_failed (env : PipelineEnv)
    (h1 : env.gitPrep = none) (h2 : env.codexRun = none)
    (h3 : env.gitStatus = Except.ok "") :
    processIssue env =
      { status := Status.failed, pr_url := none,
        error_message := some noDiffMsg } ∧
    (processIssue env).status ≠ Status.pr_raised := by
  obtain ⟨gp, cr, gs, acp, pc⟩ := env
  simp only at h1 h2 h3
  subst h1
  subst h2
  subst h3
  exact ⟨rfl, fun hc => Status.noConfusion hc⟩

/-- Witness for no_diff_failed at the concrete no-diff run. -/
theorem no_diff_failed_witness :
    processIssue envNoDiff =
      { status := Status.failed, pr_url := none,
        error_message := some noDiffMsg } ∧
    (processIssue envNoDiff).status ≠ Status.pr_raised :=
  no_diff_failed envNoDiff rfl rfl rfl

/-- C6: an exception raised by steps 1 to 6 is caught at the pipeline
boundary and written as failed with the exception string truncated to at
most 2000 characters; the loop receives the pipeline result as a value, so
nothing propagates to the loop-level handler. -/
theorem pipeline_catch_truncates (env : PipelineEnv) (e : String)
    (h : pipelineError env = some e) :
    processIssue env = failPatch e ∧
    (processIssue env).status = Status.failed ∧
    (processIssue env).error_message = some (jsSlice 2000 e) ∧
    (∀ msg, (processIssue env).error_message = some msg →
      msg.length ≤ 2000) ∧
    (∀ idleMs errMs resp issue, claimIssueWorker resp = some issue →
      issue.id ≠ "" →
      loopIteration idleMs errMs resp env =
        IterResult.processed (processIssue env)) := by
  have hp := processIssue_of_error h
  refine ⟨hp, by rw [hp]; rfl, by rw [hp]; rfl, ?_, ?_⟩
  · intro msg hmsg
    rw [hp] at hmsg
    simp only [failPatch, Option.some.injEq] at hmsg
    rw [← hmsg]
    exact jsSlice_length_le 2000 e
  · intro idleMs errMs resp issue hresp hid
    simp [loopIteration, hresp, hid]

/-- Witness for pipeline_catch_truncates at a run whose sync step raises. -/
theorem pipeline_catch_truncates_witness :
    processIssue envPrepFail = failPatch "Error: fetch failed" ∧
    (processIssue envPrepFail).status = Status.failed ∧
    (processIssue envPrepFail).error_message
      = some (jsSlice 2000 "Error: fetch failed") ∧
    (∀ msg, (processIssue envPrepFail).error_message = some msg →
      msg.length ≤ 2000) ∧
    (∀ idleMs errMs resp issue, claimIssueWorker resp = some issue →
      issue.id ≠ "" →
      loopIteration idleMs errMs resp envPrepFail =
        IterResult.processed (processIssue envPrepFail)) :=
  pipeline_catch_truncates envPrepFail "Error: fetch failed" rfl

/-- C7 counterexample: after a raised PR the exposed approve_issue moves the
row back to approved without clearing pr_url, so a reachable row has pr_url
set while its status is not pr_raised — the stated equivalence fails. -/
theorem pr_url_iff_cex :
    ∃ r ∈ runOps opsPrThenApproved,
      r.pr_url ≠ none ∧ r.status = Status.approved := by
  decide

/-- C7 amended: one direction holds for every reachable table: a row in
status pr_raised carries a URL, because the only write producing pr_raised
also sets pr_url; the converse fails since later operations (re-approval, a
later failed write) do not clear pr_url. -/
theorem pr_url_invariant_amended (ops : List Op) :
    ∀ r ∈ runOps ops, r.status = Status.pr_raised → r.pr_url ≠ none := by
  suffices h : ∀ db : List Issue,
      (∀ r ∈ db, r.status = Status.pr_raised → r.pr_url ≠ none) →
      ∀ r ∈ List.foldl stepOp db ops,
        r.status = Status.pr_raised → r.pr_url ≠ none by
    refine h [] ?_
    intro r hr
    cases hr
  induction ops with
  | nil =>
    intro db hdb
    simpa using hdb
  | cons op rest ih =>
    intro db hdb
    rw [List.foldl_cons]
    exact ih _ (stepOp_pr_inv hdb op)

/-- Witness for pr_url_invariant_amended: the reachable pr_raised row of the
successful trace carries its URL. -/
theorem pr_url_invariant_amended_witness :
    prRow ∈ runOps opsPr ∧ prRow.status = Status.pr_raised ∧
    prRow.pr_url ≠ none :=
  ⟨by decide, by decide,
    pr_url_invariant_amended opsPr prRow (by decide) (by decide)⟩

/-- C8 counterexample: the schema constrains title only to be non-null, so a
draft whose title is the empty string is accepted — the insert succeeds and
creates a row — where the claim requires a validation failure. -/
theorem insert_validation_cex :
    ∃ row db2, insertIssue draftEmptyTitle "a" none 0 []
        = Except.ok (row, db2) ∧
      row.title = "" ∧ row.status = Status.reported :=
  ⟨_, _, rfl, rfl, rfl⟩

/-- C8 amended: insert fails only when the title is null (the not-null
constraint of the column); any present title, the empty string included, is
accepted, and every accepted draft yields a row with status reported. -/
theorem insert_validation_amended (d : Draft) (newId : String)
    (uid : Option String) (now : Nat) (db : List Issue) :
    (d.title = none →
      insertIssue d newId uid now db =
        Except.error
          "null value in column title violates not-null constraint") ∧
    (∀ t, d.title = some t →
      ∃ row, insertIssue d newId uid now db = Except.ok (row, db ++ [row]) ∧
        row.title = t ∧ row.status = Status.reported) := by
  constructor
  · intro h
    simp [insertIssue, h]
  · intro t h
    unfold insertIssue
    rw [h]
    exact ⟨_, rfl, rfl, rfl⟩

/-- Witness for insert_validation_amended: the empty-string title draft is
accepted with status reported. -/
theorem insert_validation_amended_witness :
    ∃ row, insertIssue draftEmptyTitle "a" none 0 []
        = Except.ok (row, [] ++ [row]) ∧
      row.title = "" ∧ row.status = Status.reported :=
  (insert_validation_amended draftEmptyTitle "a" none 0 []).2 "" rfl

/-- C9 counterexample: a finding whose title and source_url pair equals a
previously fetched record is nevertheless inserted by the scan cycle — the
adapter itself suppresses nothing. -/
theorem scanner_dedup_cex :
    (∃ e ∈ exDup, e.title = "Dup" ∧ e.source_url = some "http://x") ∧
    (∃ d ∈ scannerInserts exDup findDup,
      d.title = some "Dup" ∧ d.source_url = some "http://x") := by
  decide

/-- C9 amended: the adapter reports existing records to the detector only
inside the scan prompt; its insertion loop performs no title and source_url
check of its own and inserts every finding of the extracted answer, for any
list of previously fetched records. -/
theorem scanner_inserts_all (existing : List ExistingIssue)
    (findings : List Finding) (f : Finding) (hf : f ∈ findings) :
    scannerPayload f ∈ scannerInserts existing findings ∧
    (scannerInserts existing findings).length = findings.length :=
  ⟨List.mem_map_of_mem scannerPayload hf, by simp [scannerInserts]⟩

/-- Witness for scanner_inserts_all: the duplicate finding is inserted. -/
theorem scanner_inserts_all_witness :
    scannerPayload findingDup ∈ scannerInserts exDup findDup ∧
    (scannerInserts exDup findDup).length = findDup.length :=
  scanner_inserts_all exDup findDup findingDup (by decide)

/-- C10: an RPC-level error from the claim call is mapped to null inside
claimIssue; the loop then takes the idle-sleep branch exactly as for an
empty backlog, and the error never reaches the loop-level handler (the
iteration result is a sleep, not a processed record). -/
theorem rpc_error_idle (e : String) (idleMs errMs : Nat)
    (env : PipelineEnv) :
    claimIssueWorker (RpcResp.rpcError e) = none ∧
    loopIteration idleMs errMs (RpcResp.rpcError e) env
      = IterResult.slept idleMs ∧
    loopIteration idleMs errMs (RpcResp.rpcError e) env
      = loopIteration idleMs errMs (RpcResp.rpcArray []) env ∧
    loopIteration idleMs errMs (RpcResp.rpcError e) env
      ≠ IterResult.processed (processIssue env) :=
  ⟨rfl, rfl, rfl, by simp [loopIteration, claimIssueWorker]⟩

end SiteScanner
